import Mathlib

/-!
Shallow embedding of the LiteVFS core (crates/litevfs) and proofs about it.

The embedding follows the Rust source module by module:
  * `locks.rs`   — the in-memory five-state SQLite lock (`InnerVfsLock::transition`);
  * `syncer.rs`  — per-database sync bookkeeping (`needs_sync`, `sync_one`, `merge_changes`);
  * `lfsc.rs`    — client error mapping (`process_response`);
  * `pager.rs`   — remote page fetch (`get_page_remote`) over a functional page cache;
  * `database.rs`— per-database state (`write_at`, `commit_journal`);
  * `vfs.rs`     — per-connection read budget (`read_exact_at`, the `lock` callback).

Machine integers are modelled as `Nat` (no arithmetic in the modelled paths overflows:
TXIDs are 64-bit counters incremented once per commit, checksums are combined with XOR
which never leaves the 64-bit range). The filesystem-backed page cache is modelled as a
function `Nat → Option β` from page numbers to page contents; page contents themselves
stay abstract (a type parameter `β`), as does the page checksum function
`cks : Nat → β → Nat`, which the source delegates to the external `litetx` crate
(`PageChecksum::page_checksum`, a function of the page bytes and the page number).
Network and filesystem outcomes that the source receives from outside (HTTP responses,
the bytes of the rollback journal header, lease lookups, the result of `write_tx`)
are passed to the modelled functions as explicit arguments.
-/

set_option autoImplicit false

namespace LiteVFS

variable {α β : Type}

/-- `ltx::Pos`: a pair of a transaction id and the post-apply checksum. -/
structure Pos where
  txid : Nat
  postApplyChecksum : Nat
deriving DecidableEq, Repr

/-- The `std::io::ErrorKind` values used by the modelled paths. -/
inductive IoErrorKind where
  | notFound
  | unexpectedEof
  | unsupported
  | permissionDenied
  | invalidInput
  | invalidData
  | wouldBlock
  | alreadyExists
  | other
deriving DecidableEq, Repr

/-- An `std::io::Error`, reduced to its kind plus the optional SQLite extended error
code carried by `sqlite_vfs::CodeError` payloads. -/
structure IoError where
  kind : IoErrorKind
  code : Option Nat
deriving DecidableEq, Repr

/-- `SQLITE_IOERR` from the SQLite ffi bindings. -/
def SQLITE_IOERR : Nat := 10

/-- `lib.rs`: custom error code `SQLITE_IOERR | (0x504F53 << 8)` ("POS"). -/
def LITEVFS_IOERR_POS_MISMATCH : Nat := SQLITE_IOERR ||| (0x504F53 <<< 8)

/-! ## locks.rs -/

/-- `sqlite_vfs::LockKind`, ordered by declaration as in the Rust `PartialOrd` derive. -/
inductive LockKind where
  | none
  | shared
  | reserved
  | pending
  | exclusive
deriving DecidableEq, Repr

/-- Numeric rank realising the derived Rust ordering on `LockKind`. -/
def LockKind.rank : LockKind → Nat
  | .none => 0
  | .shared => 1
  | .reserved => 2
  | .pending => 3
  | .exclusive => 4

/-- `InnerVfsLock`: the per-database shared lock state. `writer = some false` is a
RESERVED writer, `writer = some true` is an exclusive/pending writer. -/
structure Inner where
  readers : Nat
  writer : Option Bool
deriving DecidableEq, Repr

/-- `InnerVfsLock::transition`, translated branch for branch. Returns the updated
shared state together with the lock kind actually granted to the connection. -/
def transition (s : Inner) (frm tgt : LockKind) : Inner × LockKind :=
  if frm = tgt then (s, frm)
  else
    match tgt with
    | .none =>
      if frm = .shared then ({ s with readers := s.readers - 1 }, .none)
      else if LockKind.shared.rank < frm.rank then ({ s with writer := Option.none }, .none)
      else (s, .none)
    | .shared =>
      if s.writer = some true ∧ frm.rank < LockKind.shared.rank then (s, frm)
      else if LockKind.shared.rank < frm.rank then
        ({ readers := s.readers + 1, writer := Option.none }, .shared)
      else ({ s with readers := s.readers + 1 }, .shared)
    | .reserved =>
      if s.writer.isSome ∨ frm ≠ .shared then (s, frm)
      else ({ readers := s.readers - 1, writer := some false }, .reserved)
    | .pending => (s, frm)
    | .exclusive =>
      if s.writer.isSome ∧ frm.rank < LockKind.reserved.rank then (s, frm)
      else if frm = .shared then
        if 0 < s.readers - 1 then ({ readers := s.readers - 1, writer := some true }, .pending)
        else ({ readers := s.readers - 1, writer := some true }, .exclusive)
      else
        if 0 < s.readers then ({ s with writer := some true }, .pending)
        else ({ s with writer := some true }, .exclusive)

/-- Configurations of one `VfsLock` reachable by any number of `ConnLock` handles.
The multiset holds the current lock kind of every open handle; `conn` models
`VfsLock::conn_lock` (a fresh handle starts at `None`) and `disconn` models dropping
a handle whose `Drop` impl has already released it to `None`. -/
inductive Reachable : Inner → Multiset LockKind → Prop where
  | init : Reachable ⟨0, Option.none⟩ 0
  | conn {s hs} : Reachable s hs → Reachable s (LockKind.none ::ₘ hs)
  | disconn {s hs} : Reachable s (LockKind.none ::ₘ hs) → Reachable s hs
  | step {s hs} (frm tgt : LockKind) : Reachable s (frm ::ₘ hs) →
      Reachable (transition s frm tgt).1 ((transition s frm tgt).2 ::ₘ hs)

/-- The lock-coordination invariant: `readers` counts the SHARED handles, at most one
handle is at RESERVED or above, and the `writer` flag mirrors which one it is. -/
def LockInv (s : Inner) (hs : Multiset LockKind) : Prop :=
  s.readers = hs.count .shared ∧
  hs.count .reserved + hs.count .pending + hs.count .exclusive ≤ 1 ∧
  (s.writer = Option.none ↔ hs.count .reserved + hs.count .pending + hs.count .exclusive = 0) ∧
  (s.writer = some false → hs.count .pending + hs.count .exclusive = 0) ∧
  (s.writer = some true → hs.count .reserved = 0 ∧ hs.count .pending + hs.count .exclusive = 1) ∧
  (hs.count .exclusive = 1 → hs.count .shared = 0)

/-! ## syncer.rs -/

/-- `syncer::Changes`: the invalidation set accumulated for one database. The source
stores pages in a `BTreeSet`; the ordered-set structure is immaterial to the claims
proved here, so a plain list of page numbers is used. -/
inductive SChanges where
  | all
  | pages (pgnos : List Nat)
deriving DecidableEq, Repr

/-- `lfsc::Changes`: the per-database change set as reported by LFSC, carrying the
server position. -/
inductive LChanges where
  | all (pos : Option Pos)
  | pages (pos : Option Pos) (pgnos : Option (List Nat))
deriving DecidableEq, Repr

/-- `lfsc::Changes::pos`. -/
def LChanges.pos : LChanges → Option Pos
  | .all p => p
  | .pages p _ => p

/-- `impl From<lfsc::Changes> for Option<syncer::Changes>`. -/
def lchangesToChanges : LChanges → Option SChanges
  | .all _ => some .all
  | .pages _ Option.none => Option.none
  | .pages _ (some l) => some (.pages l)

/-- `syncer::native::merge_changes`. -/
def merge_changes : Option SChanges → Option SChanges → Option SChanges
  | c1, Option.none => c1
  | Option.none, c2 => c2
  | some .all, _ => some .all
  | _, some .all => some .all
  | some (.pages p1), some (.pages p2) => some (.pages (p1 ∪ p2))

/-- `syncer::native::Db`: the record the syncer keeps per tracked database.
`SystemTime` instants and `Duration`s are modelled as `Nat` (the source's
`checked_add` cannot overflow on `Nat`). -/
structure SyncerDb where
  position : Option Pos
  changes : Option SChanges
  conns : Nat
  lastSync : Nat
  period : Nat
deriving DecidableEq, Repr

/-- `Db::sync_period`: `None` disables periodic sync. -/
def SyncerDb.sync_period (db : SyncerDb) : Option Nat :=
  if db.period = 0 then Option.none else some db.period

/-- `Db::next_sync`. -/
def SyncerDb.next_sync (db : SyncerDb) : Option Nat :=
  (db.sync_period).map (fun p => db.lastSync + p)

/-- `Db::needs_sync`. -/
def SyncerDb.needs_sync (db : SyncerDb) (now : Nat) : Bool :=
  match db.next_sync with
  | some ns => ns ≤ now
  | Option.none => false

/-- `Syncer::needs_sync` (native), after the map lookup for the tracked database. -/
def syncer_needs_sync (db : SyncerDb) (pos : Option Pos) (now : Nat) : Bool :=
  if db.position.isSome ∧ db.position ≠ pos then true
  else db.needs_sync now

/-- The txid of an optional position, treating an absent position as `0`
(`p.map(|p| p.txid.into_inner()).unwrap_or(0)`). -/
def txidOf : Option Pos → Nat
  | some q => q.txid
  | Option.none => 0

/-- `Syncer::sync_one` (native), acting on the tracked record of one database:
`reported` is the change set returned by `client.sync_db` and `now` the time at
which the record is stamped. -/
def sync_one (db : SyncerDb) (reported : LChanges) (now : Nat) : SyncerDb :=
  if txidOf db.position ≤ txidOf reported.pos then
    { db with
      position := reported.pos
      changes := merge_changes (lchangesToChanges reported) db.changes
      lastSync := now }
  else db

/-! ## lfsc.rs -/

/-- The outcome of one HTTP exchange as seen by `Client::process_response`:
either a successful response (already decoded to `α`), a transport failure, or an
error status whose JSON body `{code, error, pos?}` has been decoded. -/
inductive HttpResult (α : Type) where
  | success (v : α)
  | transportErr (msg : String)
  | statusErr (code : Nat) (bodyCode : String) (bodyError : String) (bodyPos : Option Pos)

/-- `lfsc::Error`, restricted to the variants the modelled paths produce. -/
inductive LfscError where
  | posMismatch (pos : Pos)
  | transport (msg : String)
  | lfsc (httpCode : Nat) (code : String) (error : String)
deriving DecidableEq, Repr

/-- `Client::process_response`: classify the HTTP outcome, turning an error body
with `code == "EPOSMISMATCH"` and a position into `Error::PosMismatch`. -/
def process_response (resp : HttpResult α) : Except LfscError α :=
  match resp with
  | .success v => Except.ok v
  | .transportErr m => Except.error (.transport m)
  | .statusErr code bcode berr bpos =>
    match bpos with
    | some pos =>
      if bcode = "EPOSMISMATCH" then Except.error (.posMismatch pos)
      else Except.error (.lfsc code bcode berr)
    | Option.none => Except.error (.lfsc code bcode berr)

/-- `impl From<lfsc::Error> for io::Error`, at the level of error kinds. -/
def lfscErrorKind : LfscError → IoErrorKind
  | .transport _ => .other
  | .posMismatch _ => .invalidData
  | .lfsc c _ _ => if c = 404 then .notFound else if c = 409 then .alreadyExists else .other

/-! ## pager.rs -/

/-- The per-database on-disk page cache, as a map from page numbers to page
contents. `put_page` overwrites, `del_page` removes, `has_page` tests presence. -/
def put_page (cache : Nat → Option β) (pgno : Nat) (d : β) : Nat → Option β :=
  fun m => if m = pgno then some d else cache m

/-- `Pager::del_page` on the cache map (removing a missing page is a no-op). -/
def del_page (cache : Nat → Option β) (pgno : Nat) : Nat → Option β :=
  fun m => if m = pgno then Option.none else cache m

/-- `Pager::has_page`. -/
def has_page (cache : Nat → Option β) (pgno : Nat) : Bool :=
  (cache pgno).isSome

/-- `Pager::get_page_remote`. The wire exchange is split into the HTTP outcome
`resp` (fed through `process_response`, as `Client::get_pages` does) whose success
value is the decoded page list. Every returned page is stored into the cache via
`put_page`; the page matching the request is returned (the source keeps the last
match). On `PosMismatch` the distinguished engine code is attached; no page is
stored or removed on any error path. -/
def get_page_remote (cache : Nat → Option β) (pos : Option Pos) (pgno : Nat)
    (resp : HttpResult (List (Nat × β))) :
    Except IoError β × (Nat → Option β) :=
  match pos with
  | Option.none => (Except.error ⟨.notFound, Option.none⟩, cache)
  | some _ =>
    match process_response resp with
    | Except.error (.posMismatch _) =>
      (Except.error ⟨.other, some LITEVFS_IOERR_POS_MISMATCH⟩, cache)
    | Except.error e => (Except.error ⟨lfscErrorKind e, Option.none⟩, cache)
    | Except.ok pages =>
      let cache1 := pages.foldl (fun c p => put_page c p.1 p.2) cache
      match pages.foldl (fun acc p => if p.1 = pgno then some p.2 else acc)
          (Option.none : Option β) with
      | some d => (Except.ok d, cache1)
      | Option.none => (Except.error ⟨.notFound, Option.none⟩, cache1)

/-! ## database.rs

The per-database state. The pager cache for the database is embedded as the
`cache` field (`Pager::put_page` / `del_page` / `has_page` act on it); `page_size`
is kept only as "known or not" together with its value, since its byte-level
encoding lives in the abstract page contents: `parsePS` and `parseCommit` stand for
`Database::parse_page_size_database` and `Database::parse_commit_database` applied
to a page-1 buffer (returning `none` where the source returns an `InvalidData`
error). `Database::new`-time fields that no modelled claim touches (paths, prefetch
state) are omitted. -/

structure DbState (β : Type) where
  pageSize : Option Nat
  pos : Option Pos
  committedDbSize : Option Nat
  currentDbSize : Option Nat
  dirtyPages : List (Nat × Option Nat)
  cache : Nat → Option β
  wal : Bool

/-- The lock page for a given page size: `ltx::PageNum::lock_page`,
`0x40000000 / page_size + 1`. -/
def lockPage (ps : Nat) : Nat := 0x40000000 / ps + 1

/-- `BTreeMap::entry(n).or_insert(v)` on the ascending-ordered dirty-page list:
insert `(n, v)` in order, keeping the existing value if the key is present. -/
def dirtyInsert (n : Nat) (v : Option Nat) : List (Nat × Option Nat) → List (Nat × Option Nat)
  | [] => [(n, v)]
  | (m, w) :: rest =>
    if n < m then (n, v) :: (m, w) :: rest
    else if n = m then (m, w) :: rest
    else (m, w) :: dirtyInsert n v rest

/-- Key lookup on the dirty-page list. -/
def dirtyLookup (l : List (Nat × Option Nat)) (n : Nat) : Option (Option Nat) :=
  (l.find? (fun p => p.1 = n)).map Prod.snd

/-- The `BTreeMap` representation invariant: keys strictly ascending. -/
def dirtySorted (l : List (Nat × Option Nat)) : Prop :=
  List.Pairwise (fun a b => a.1 < b.1) l

/-- `Database::write_at` for one page-aligned write of page `pgno` with contents
`d`. The source order is kept: (1) an offset-0 write that covers the 100-byte
header records the page size (if unknown) and the commit count — both before any
other check; (2) `leaser.get_lease` (fails with `PermissionDenied` when no lease is
held); (3) the WAL refusal; (4) `ensure_aligned` (fails when the page size is
unknown; the write is a whole aligned page by construction of the model);
(5) the pre-edit checksum: `None` for a page beyond `committed_db_size`, otherwise
the checksum of the cached copy (`Pager::get_page`, which for a page the cache
misses yields `UnexpectedEof`, hence `None` — a dirty page's pre-edit content, when
it exists, is the locally cached one); (6) `put_page`; (7) the lock page is never
recorded as dirty; (8) `dirty_pages.entry(pgno).or_insert(pre-edit checksum)`. -/
def write_at (cks : Nat → β → Nat) (parsePS parseCommit : β → Option Nat)
    (lease : Option String) (pgno : Nat) (d : β) (st : DbState β) :
    Except IoError Unit × DbState β :=
  -- step (1): header bookkeeping for offset-0 writes (offset 0 ⟺ page 1)
  let hdr : Except IoError (DbState β) × DbState β :=
    if pgno = 1 then
      match st.pageSize with
      | Option.none =>
        match parsePS d with
        | Option.none => (Except.error ⟨.invalidData, Option.none⟩, st)
        | some ps =>
          let st1 : DbState β := { st with pageSize := some ps }
          match parseCommit d with
          | Option.none => (Except.error ⟨.invalidData, Option.none⟩, st1)
          | some c => (Except.ok { st1 with currentDbSize := some c }, st1)
      | some _ =>
        match parseCommit d with
        | Option.none => (Except.error ⟨.invalidData, Option.none⟩, st)
        | some c => (Except.ok { st with currentDbSize := some c }, st)
    else (Except.ok st, st)
  match hdr with
  | (Except.error e, stE) => (Except.error e, stE)
  | (Except.ok st, _) =>
    -- step (2): the write lease
    match lease with
    | Option.none => (Except.error ⟨.permissionDenied, Option.none⟩, st)
    | some _ =>
      -- step (3): WAL refusal
      if st.wal then (Except.error ⟨.unsupported, Option.none⟩, st)
      else
        -- step (4): ensure_aligned needs a known page size
        match st.pageSize with
        | Option.none => (Except.error ⟨.other, Option.none⟩, st)
        | some ps =>
          -- step (5): pre-edit checksum
          let orig : Option Nat :=
            match st.committedDbSize with
            | some dbsize =>
              if dbsize < pgno then Option.none else (st.cache pgno).map (cks pgno)
            | Option.none => (st.cache pgno).map (cks pgno)
          -- step (6): Pager::put_page
          let st := { st with cache := put_page st.cache pgno d }
          -- steps (7)/(8)
          if pgno = lockPage ps then (Except.ok (), st)
          else (Except.ok (), { st with dirtyPages := dirtyInsert pgno orig st.dirtyPages })

/-- The rollback-journal magic (`VALID_JOURNAL_HDR`). -/
def VALID_JOURNAL_HDR : List Nat := [0xd9, 0xd5, 0x05, 0xf9, 0x20, 0xa1, 0x63, 0xd7]

/-- The new commit's TXID: `pos.txid + 1`, or `TXID::ONE` for a null position. -/
def nextTxid : Option Pos → Nat
  | some p => p.txid + 1
  | Option.none => 1

/-- The starting value of the running commit checksum:
`pos.map(|p| p.post_apply_checksum).unwrap_or(0)`. -/
def startChecksum : Option Pos → Nat
  | some p => p.postApplyChecksum
  | Option.none => 0

/-- Rust `Option<PageNum>` ordering (`None < Some _`), used by the VACUUM check
`current_db_size < committed_db_size`. -/
def optSizeLt : Option Nat → Option Nat → Bool
  | _, Option.none => false
  | Option.none, some _ => true
  | some a, some b => a < b

/-- The running-checksum loop of `Database::commit_journal_inner`: over the dirty
entries (already filtered to pages within the commit), fetch each page from the
cache, XOR out its pre-edit checksum when present and XOR in its current checksum.
Returns `none` when a dirty page is missing from the cache (the source's
`Pager::get_page` would fail there: the content of a locally edited page exists
only in the local cache). -/
def commitChecksumLoop (cks : Nat → β → Nat) (cache : Nat → Option β) :
    List (Nat × Option Nat) → Nat → Option Nat
  | [], acc => some acc
  | (n, prev) :: rest, acc =>
    match cache n with
    | Option.none => Option.none
    | some d =>
      let acc1 := match prev with
        | some c => acc ^^^ c
        | Option.none => acc
      commitChecksumLoop cks cache rest (acc1 ^^^ cks n d)

/-- `Database::commit_journal_inner`: VACUUM check, commit-size unwrap, lease
lookup, LTX encoding (the header needs the page size), the running XOR checksum
over the dirty pages with number ≤ commit, the `write_tx` POST (outcome given as
`writeTxOk`), and the resulting position `{txid, post-apply checksum}`. File-system
side effects (the LTX temp file, the pos sidecar) leave the modelled state
untouched. -/
def commit_journal_inner (cks : Nat → β → Nat) (lease : Option String)
    (writeTxOk : Bool) (txid : Nat) (st : DbState β) : Except IoError Pos :=
  if optSizeLt st.currentDbSize st.committedDbSize then
    Except.error ⟨.other, Option.none⟩
  else
    match st.currentDbSize with
    | Option.none => Except.error ⟨.other, Option.none⟩
    | some commit =>
      match lease with
      | Option.none => Except.error ⟨.permissionDenied, Option.none⟩
      | some _ =>
        match st.pageSize with
        | Option.none => Except.error ⟨.other, Option.none⟩
        | some _ =>
          match commitChecksumLoop cks st.cache
              (st.dirtyPages.filter (fun p => p.1 ≤ commit))
              (startChecksum st.pos) with
          | Option.none => Except.error ⟨.unexpectedEof, Option.none⟩
          | some ck =>
            if writeTxOk then Except.ok ⟨txid, ck⟩
            else Except.error ⟨.other, Option.none⟩

/-- Delete a list of pages from the cache (`Pager::del_page` per dirty page). -/
def delPages (cache : Nat → Option β) (l : List Nat) : Nat → Option β :=
  l.foldl (fun c n => del_page c n) cache

/-- `Database::commit_journal`. `hdr` is the 8-byte journal prefix read by
`is_journal_header_valid`. A non-magic prefix is a rollback: drop the dirty set
and succeed. Otherwise run `commit_journal_inner` with the next TXID; on success
advance `committed_db_size`, clear the dirty set and install the new position; on
failure delete every dirty page from the cache, clear the dirty set, and return the
error. (`syncer.set_pos` on success touches only syncer state.) -/
def commit_journal (cks : Nat → β → Nat) (hdr : List Nat) (lease : Option String)
    (writeTxOk : Bool) (st : DbState β) : Except IoError Unit × DbState β :=
  if hdr ≠ VALID_JOURNAL_HDR then
    (Except.ok (), { st with dirtyPages := [] })
  else
    match commit_journal_inner cks lease writeTxOk (nextTxid st.pos) st with
    | Except.ok pos =>
      (Except.ok (),
        { st with
          committedDbSize := st.currentDbSize
          dirtyPages := []
          pos := some pos })
    | Except.error e =>
      (Except.error e,
        { st with
          cache := delPages st.cache (st.dirtyPages.map Prod.fst)
          dirtyPages := [] })

/-- A freshly created database that exists nowhere yet: null position, unknown
sizes, empty cache (`DatabaseManager::get_database_remote` with `CreateNew`). -/
def emptyDb : DbState β :=
  { pageSize := Option.none
    pos := Option.none
    committedDbSize := Option.none
    currentDbSize := Option.none
    dirtyPages := []
    cache := fun _ => Option.none
    wal := false }

/-- Run a transaction's page writes in order, stopping at the first error
(each one is a `write_at` through the VFS facade's `write_all_at`). -/
def runWrites (cks : Nat → β → Nat) (parsePS parseCommit : β → Option Nat)
    (lease : Option String) : List (Nat × β) → DbState β → Except IoError (DbState β)
  | [], st => Except.ok st
  | (n, d) :: rest, st =>
    match write_at cks parsePS parseCommit lease n d st with
    | (Except.ok _, st1) => runWrites cks parsePS parseCommit lease rest st1
    | (Except.error e, _) => Except.error e

/-- The committed size as a number (`0` when unknown). -/
def committedN (st : DbState β) : Nat := st.committedDbSize.getD 0

/-- The current size as a number (`0` when unknown). -/
def currentN (st : DbState β) : Nat := st.currentDbSize.getD 0

/-- The page-checksum of a cache slot, `0` when the slot is empty. -/
def pk (cks : Nat → β → Nat) (cache : Nat → Option β) (n : Nat) : Nat :=
  match cache n with
  | some d => cks n d
  | Option.none => 0

/-- XOR of the page checksums of pages `1..k` of a cache. -/
def xorPages (cks : Nat → β → Nat) (cache : Nat → Option β) : Nat → Nat
  | 0 => 0
  | k + 1 => xorPages cks cache k ^^^ pk cks cache (k + 1)

/-- A chain of successful SQLite transactions against one database: each link runs
the transaction's page writes and then a `commit_journal` triggered by a journal
bearing the valid magic, and requires both to succeed. The side conditions record
what SQLite guarantees about its own write traffic: page numbers are 1-based, the
lock page is never written, and every page the commit adds beyond the previously
committed size was written during the transaction. -/
inductive CommitChain (cks : Nat → β → Nat) (parsePS parseCommit : β → Option Nat) :
    DbState β → DbState β → Prop where
  | refl (st : DbState β) : CommitChain cks parsePS parseCommit st st
  | step {st st1 : DbState β} (st2 st3 : DbState β) (ws : List (Nat × β)) (l : String)
      (wOk : Bool) :
      CommitChain cks parsePS parseCommit st st1 →
      runWrites cks parsePS parseCommit (some l) ws st1 = Except.ok st2 →
      (∀ w ∈ ws, 1 ≤ w.1) →
      (∀ w ∈ ws, ∀ ps, st2.pageSize = some ps → w.1 ≠ lockPage ps) →
      (∀ n, committedN st1 < n → n ≤ currentN st2 → n ∈ ws.map Prod.fst) →
      commit_journal cks VALID_JOURNAL_HDR (some l) wOk st2 = (Except.ok (), st3) →
      CommitChain cks parsePS parseCommit st st3

/-- The pre-edit checksum `Database::write_at` memorises for page `n` of `st`:
`None` for a page beyond the committed size, otherwise the checksum of the cached
copy (absent copy ⇒ `None`). -/
def origOf (cks : Nat → β → Nat) (st : DbState β) (n : Nat) : Option Nat :=
  match st.committedDbSize with
  | some dbsize => if dbsize < n then Option.none else (st.cache n).map (cks n)
  | Option.none => (st.cache n).map (cks n)

/-- The XOR contribution of one dirty entry to the commit checksum: its pre-edit
checksum (0 when absent) XOR the current checksum of its page. -/
def contribD (cks : Nat → β → Nat) (cache : Nat → Option β) (p : Nat × Option Nat) : Nat :=
  (match p.2 with
   | some c => c
   | Option.none => 0) ^^^ pk cks cache p.1

/-- XOR of the contributions of a list of dirty entries. -/
def foldXor (cks : Nat → β → Nat) (cache : Nat → Option β)
    (l : List (Nat × Option Nat)) : Nat :=
  l.foldr (fun p a => contribD cks cache p ^^^ a) 0

/-- The state invariant maintained across successful commits starting from an
empty database: no transaction in progress, rollback-journal mode, and either the
database exists nowhere yet (null position, no committed size, empty cache) or the
position's post-apply checksum is exactly the XOR of the page checksums of the
committed pages, all of which are cached. -/
def Good (cks : Nat → β → Nat) (st : DbState β) : Prop :=
  st.dirtyPages = [] ∧ st.wal = false ∧
  ((st.pos = Option.none ∧ st.committedDbSize = Option.none ∧
      (∀ n, st.cache n = Option.none)) ∨
    (∃ p s, st.pos = some p ∧ st.committedDbSize = some s ∧
      p.postApplyChecksum = xorPages cks st.cache s ∧
      (∀ n, 1 ≤ n → n ≤ s → (st.cache n).isSome)))

/-- The state after the single write of the witness transaction: page 1 written
with content `9`, header declaring one page of size 512. -/
def c2Mid : DbState Nat :=
  { pageSize := some 512
    pos := Option.none
    committedDbSize := Option.none
    currentDbSize := some 1
    dirtyPages := [(1, Option.none)]
    cache := fun m => if m = 1 then some 9 else Option.none
    wal := false }

/-- The state after committing the witness transaction: txid 1, post-apply
checksum `cks 1 9 = 16 * 1 + 9 = 25`. -/
def c2Final : DbState Nat :=
  { pageSize := some 512
    pos := some ⟨1, 25⟩
    committedDbSize := some 1
    currentDbSize := some 1
    dirtyPages := []
    cache := fun m => if m = 1 then some 9 else Option.none
    wal := false }

/-! ## vfs.rs -/

/-- `DEFAULT_MAX_REQS_PER_QUERY`. -/
def DEFAULT_MAX_REQS_PER_QUERY : Nat := 64

/-- `MAX_MAX_REQS_PER_QUERY`. -/
def MAX_MAX_REQS_PER_QUERY : Nat := 1024

/-- The per-connection fields of `LiteDatabaseHandle` that the read budget uses. -/
structure HandleState where
  curPagesPerQuery : Nat
  maxPagesPerQuery : Nat
  lockState : LockKind
deriving DecidableEq, Repr

/-- The `local_only` flag computed by `LiteDatabaseHandle::read_exact_at`:
`max_pages_per_query > 0 && cur_pages_per_query >= max_pages_per_query`. -/
def localOnlyFlag (h : HandleState) : Bool :=
  decide (0 < h.maxPagesPerQuery) && decide (h.maxPagesPerQuery ≤ h.curPagesPerQuery)

/-- `LiteDatabaseHandle::read_exact_at`, at the granularity the claim needs:
`hit` says whether `Pager::get_page_slice_local` succeeds; on a miss with the
`local_only` flag set, `Pager::get_page_slice_inner` fails with `WouldBlock`;
otherwise the remote path runs with outcome `remoteRes`, and a read served
remotely increments `cur_pages_per_query`. -/
def read_exact_at (h : HandleState) (hit : Bool) (remoteRes : Except IoError Unit) :
    Except IoError Unit × HandleState :=
  if hit then (Except.ok (), h)
  else if localOnlyFlag h then (Except.error ⟨.wouldBlock, Option.none⟩, h)
  else
    match remoteRes with
    | Except.ok _ => (Except.ok (), { h with curPagesPerQuery := h.curPagesPerQuery + 1 })
    | Except.error e => (Except.error e, h)

/-- `LiteDatabaseHandle::lock`, restricted to the counter/lock bookkeeping: a
request for `None` zeroes `cur_pages_per_query`, then the shared five-state
machine processes the request. -/
def handle_lock (s : Inner) (h : HandleState) (tgt : LockKind) : Inner × HandleState :=
  let h1 := if tgt = LockKind.none then { h with curPagesPerQuery := 0 } else h
  let r := transition s h1.lockState tgt
  (r.1, { h1 with lockState := r.2 })

/-- The kind of the error of a fallible result, `none` on success. -/
def errKind : Except IoError α → Option IoErrorKind
  | Except.error e => some e.kind
  | Except.ok _ => Option.none

/-! Concrete states used to evaluate the theorems on explicit inputs. -/

/-- A one-page database in the middle of its first transaction: page 1 written
(no pre-edit checksum), not yet committed anywhere. -/
def c1St : DbState Nat :=
  { pageSize := some 512
    pos := Option.none
    committedDbSize := Option.none
    currentDbSize := some 1
    dirtyPages := [(1, Option.none)]
    cache := fun m => if m = 1 then some 7 else Option.none
    wal := false }

/-- A database with one dirty page (page 2, pre-edit checksum 5) whose commit is
about to fail. -/
def c3St : DbState Nat :=
  { pageSize := some 512
    pos := Option.none
    committedDbSize := some 1
    currentDbSize := some 3
    dirtyPages := [(2, some 5)]
    cache := fun m => if m = 2 then some 9 else Option.none
    wal := false }

/-- A database opened read-only because its page-1 header carries version byte 2
(WAL mode). -/
def walSt : DbState Nat :=
  { pageSize := some 512
    pos := Option.none
    committedDbSize := some 1
    currentDbSize := some 1
    dirtyPages := []
    cache := fun _ => Option.none
    wal := true }

/-! # Theorems -/

/-! ## Helper lemmas -/

theorem delPages_cons (cache : Nat → Option β) (a : Nat) (l : List Nat) :
    delPages cache (a :: l) = delPages (del_page cache a) l := rfl

theorem delPages_not_mem (l : List Nat) :
    ∀ (cache : Nat → Option β) (n : Nat), n ∉ l → delPages cache l n = cache n := by
  induction l with
  | nil => intro cache n _; rfl
  | cons a l ih =>
    intro cache n hn
    have hne : ¬n = a := fun h => hn (by rw [h]; exact List.mem_cons_self a l)
    rw [delPages_cons, ih _ _ (fun h => hn (List.mem_cons_of_mem a h))]
    simp only [del_page]
    rw [if_neg hne]

theorem delPages_mem (l : List Nat) :
    ∀ (cache : Nat → Option β) (n : Nat), n ∈ l → delPages cache l n = Option.none := by
  induction l with
  | nil => intro cache n hn; cases hn
  | cons a l ih =>
    intro cache n hn
    rw [delPages_cons]
    by_cases hl : n ∈ l
    · exact ih _ _ hl
    · have hna : n = a := by
        rcases List.mem_cons.mp hn with h | h
        · exact h
        · exact absurd h hl
      clear hn
      rw [delPages_not_mem l _ _ hl]
      simp [del_page, hna]

theorem commit_journal_inner_txid (cks : Nat → β → Nat) (lease : Option String)
    (wOk : Bool) (txid : Nat) (st : DbState β) (p : Pos)
    (h : commit_journal_inner cks lease wOk txid st = Except.ok p) : p.txid = txid := by
  unfold commit_journal_inner at h
  repeat' split at h
  all_goals first
    | (cases h; rfl)
    | exact absurd h (by simp)

/-! ## C4: the five-state lock machine -/

theorem lockInv_init : LockInv ⟨0, Option.none⟩ 0 := by
  simp [LockInv]

theorem lockInv_cons_none (s : Inner) (hs : Multiset LockKind) (h : LockInv s hs) :
    LockInv s (LockKind.none ::ₘ hs) := by
  simpa [LockInv, Multiset.count_cons] using h

theorem lockInv_uncons_none (s : Inner) (hs : Multiset LockKind)
    (h : LockInv s (LockKind.none ::ₘ hs)) : LockInv s hs := by
  simpa [LockInv, Multiset.count_cons] using h

set_option maxHeartbeats 1600000 in
theorem lockInv_step (s : Inner) (hs : Multiset LockKind) (frm tgt : LockKind)
    (h : LockInv s (frm ::ₘ hs)) :
    LockInv (transition s frm tgt).1 ((transition s frm tgt).2 ::ₘ hs) := by
  obtain ⟨h1, h2, h3, h4, h5, h6⟩ := h
  simp only [Multiset.count_cons] at h1 h2 h3 h4 h5 h6
  rcases hw : s.writer with _ | b
  on_goal 2 => cases b
  all_goals cases frm <;> cases tgt
  all_goals simp only [transition, LockKind.rank, LockInv, hw]
  all_goals (try simp [hw, Multiset.count_cons, -Multiset.count_eq_zero] at h1)
  all_goals (try simp [hw, Multiset.count_cons, -Multiset.count_eq_zero] at h2)
  all_goals (try simp [hw, Multiset.count_cons, -Multiset.count_eq_zero] at h3)
  all_goals (try simp [hw, Multiset.count_cons, -Multiset.count_eq_zero] at h4)
  all_goals (try simp [hw, Multiset.count_cons, -Multiset.count_eq_zero] at h5)
  all_goals (try simp [hw, Multiset.count_cons, -Multiset.count_eq_zero] at h6)
  all_goals ((try split_ifs) <;> (try contradiction) <;>
    (try simp [hw, Multiset.count_cons, -Multiset.count_eq_zero]) <;> omega)

theorem lockInv_reachable (s : Inner) (hs : Multiset LockKind) (h : Reachable s hs) :
    LockInv s hs := by
  induction h with
  | init => exact lockInv_init
  | conn _ ih => exact lockInv_cons_none _ _ ih
  | disconn _ ih => exact lockInv_uncons_none _ _ ih
  | step frm tgt _ ih => exact lockInv_step _ _ _ _ ih

/-- C4. In every reachable configuration of one `VfsLock` with its handles:
at most one handle holds EXCLUSIVE; a handle in NONE requesting SHARED while some
other handle holds PENDING or EXCLUSIVE is refused (it stays at NONE); and a
release from SHARED to NONE decrements `readers` by exactly one. -/
theorem lock_state_machine (s : Inner) (hs : Multiset LockKind) (h : Reachable s hs) :
    hs.count LockKind.exclusive ≤ 1 ∧
    (∀ hs', hs = LockKind.none ::ₘ hs' →
      1 ≤ hs'.count LockKind.pending + hs'.count LockKind.exclusive →
      (transition s LockKind.none LockKind.shared).2 = LockKind.none) ∧
    (∀ hs', hs = LockKind.shared ::ₘ hs' →
      (transition s LockKind.shared LockKind.none).1.readers + 1 = s.readers) := by
  obtain ⟨h1, h2, h3, h4, h5, h6⟩ := lockInv_reachable s hs h
  refine ⟨by omega, ?_, ?_⟩
  · intro hs' heq hpe
    subst heq
    have hwt : s.writer = some true := by
      rcases hw : s.writer with _ | b
      · rw [hw] at h3
        have hx := h3.mp rfl
        simp [Multiset.count_cons, -Multiset.count_eq_zero] at hx
        omega
      · cases b
        · rw [hw] at h4
          have hx := h4 rfl
          simp [Multiset.count_cons, -Multiset.count_eq_zero] at hx
          omega
        · rfl
    simp [transition, hwt, LockKind.rank]
  · intro hs' heq
    subst heq
    have hr : s.readers = hs'.count LockKind.shared + 1 := by
      rw [h1]
      simp [Multiset.count_cons]
    simp [transition]
    omega

/-- C4 witness: with one handle PENDING, one SHARED and one idle, the invariants
hold, the idle handle cannot take SHARED, and the reader's release decrements the
counter from one to zero. -/
theorem lock_state_machine_witness :
    Multiset.count LockKind.exclusive
        (LockKind.pending ::ₘ LockKind.shared ::ₘ LockKind.none ::ₘ 0) ≤ 1 ∧
    (∀ hs', (LockKind.pending ::ₘ LockKind.shared ::ₘ LockKind.none ::ₘ 0 : Multiset LockKind)
        = LockKind.none ::ₘ hs' →
      1 ≤ hs'.count LockKind.pending + hs'.count LockKind.exclusive →
      (transition ⟨1, some true⟩ LockKind.none LockKind.shared).2 = LockKind.none) ∧
    (∀ hs', (LockKind.pending ::ₘ LockKind.shared ::ₘ LockKind.none ::ₘ 0 : Multiset LockKind)
        = LockKind.shared ::ₘ hs' →
      (transition ⟨1, some true⟩ LockKind.shared LockKind.none).1.readers + 1
        = (⟨1, some true⟩ : Inner).readers) :=
  lock_state_machine ⟨1, some true⟩ _ (by
    have r0 : Reachable ⟨0, Option.none⟩
        (LockKind.none ::ₘ LockKind.none ::ₘ LockKind.none ::ₘ 0) :=
      Reachable.conn (Reachable.conn (Reachable.conn Reachable.init))
    have r1 : Reachable ⟨1, Option.none⟩
        (LockKind.shared ::ₘ LockKind.none ::ₘ LockKind.none ::ₘ 0) :=
      Reachable.step LockKind.none LockKind.shared r0
    rw [Multiset.cons_swap] at r1
    have r2 : Reachable ⟨1, some true⟩
        (LockKind.pending ::ₘ LockKind.shared ::ₘ LockKind.none ::ₘ 0) :=
      Reachable.step LockKind.none LockKind.exclusive r1
    exact r2)

/-! ## C5: pos-mismatch on remote fetch -/

/-- C5. When LFSC answers a remote page fetch with an `EPOSMISMATCH` error body
carrying a position, `get_page_remote` fails with an I/O error whose engine code is
`SQLITE_IOERR | (0x504F53 << 8)` and the page cache is returned unchanged: the
failed fetch stores and removes nothing. -/
theorem get_page_remote_pos_mismatch (cache : Nat → Option β) (p pos' : Pos)
    (pgno code : Nat) (berr : String) :
    get_page_remote cache (some p) pgno
        (HttpResult.statusErr code "EPOSMISMATCH" berr (some pos')) =
      (Except.error ⟨.other, some (SQLITE_IOERR ||| (0x504F53 <<< 8))⟩, cache) := by
  simp [get_page_remote, process_response, LITEVFS_IOERR_POS_MISMATCH]

/-! ## C6: needs_sync -/

/-- C6 counterexample. The claim states that `needs_sync` returns `true` whenever
the known position differs from the argument; but with a null known position and a
non-null argument (positions differing) and no elapsed-period trigger, the code
returns `false`: the position test requires the known position to be non-null. -/
theorem needs_sync_cex :
    ((⟨Option.none, Option.none, 1, 0, 10⟩ : SyncerDb).position ≠ some ⟨1, 0⟩) ∧
    syncer_needs_sync ⟨Option.none, Option.none, 1, 0, 10⟩ (some ⟨1, 0⟩) 0 = false := by
  decide

/-- C6 (amended). `needs_sync(db, pos)` returns `true` exactly when the known
position is non-null and differs from `pos`, or the per-database period is non-zero
and at least one period has elapsed since the last sync. -/
theorem needs_sync_iff (db : SyncerDb) (pos : Option Pos) (now : Nat) :
    syncer_needs_sync db pos now = true ↔
      ((db.position.isSome ∧ db.position ≠ pos) ∨
        (db.period ≠ 0 ∧ db.lastSync + db.period ≤ now)) := by
  unfold syncer_needs_sync SyncerDb.needs_sync SyncerDb.next_sync SyncerDb.sync_period
  by_cases h1 : db.position.isSome ∧ db.position ≠ pos <;>
    by_cases h2 : db.period = 0 <;>
      simp_all

/-! ## C8: rollback on invalid journal magic -/

/-- C8. A `commit_journal` whose journal prefix is not the rollback magic clears
the dirty set, returns OK, and leaves `pos`, `committed_db_size` and
`current_db_size` (and the cache) unchanged. -/
theorem commit_journal_rollback (cks : Nat → β → Nat) (hdr : List Nat)
    (lease : Option String) (wOk : Bool) (st : DbState β)
    (hm : hdr ≠ VALID_JOURNAL_HDR) :
    (commit_journal cks hdr lease wOk st).1 = Except.ok () ∧
    (commit_journal cks hdr lease wOk st).2.dirtyPages = [] ∧
    (commit_journal cks hdr lease wOk st).2.pos = st.pos ∧
    (commit_journal cks hdr lease wOk st).2.committedDbSize = st.committedDbSize ∧
    (commit_journal cks hdr lease wOk st).2.currentDbSize = st.currentDbSize ∧
    (commit_journal cks hdr lease wOk st).2.cache = st.cache := by
  simp [commit_journal, hm]

/-- C8 witness: a rollback journal full of zeroes against the empty database. -/
theorem commit_journal_rollback_witness :
    ([0, 0, 0, 0, 0, 0, 0, 0] ≠ VALID_JOURNAL_HDR) ∧
    ((commit_journal (fun n d => n + d) [0, 0, 0, 0, 0, 0, 0, 0] Option.none false
        (emptyDb (β := Nat))).1 = Except.ok () ∧
      (commit_journal (fun n d => n + d) [0, 0, 0, 0, 0, 0, 0, 0] Option.none false
        (emptyDb (β := Nat))).2.dirtyPages = [] ∧
      (commit_journal (fun n d => n + d) [0, 0, 0, 0, 0, 0, 0, 0] Option.none false
        (emptyDb (β := Nat))).2.pos = (emptyDb (β := Nat)).pos ∧
      (commit_journal (fun n d => n + d) [0, 0, 0, 0, 0, 0, 0, 0] Option.none false
        (emptyDb (β := Nat))).2.committedDbSize = (emptyDb (β := Nat)).committedDbSize ∧
      (commit_journal (fun n d => n + d) [0, 0, 0, 0, 0, 0, 0, 0] Option.none false
        (emptyDb (β := Nat))).2.currentDbSize = (emptyDb (β := Nat)).currentDbSize ∧
      (commit_journal (fun n d => n + d) [0, 0, 0, 0, 0, 0, 0, 0] Option.none false
        (emptyDb (β := Nat))).2.cache = (emptyDb (β := Nat)).cache) :=
  ⟨by decide, commit_journal_rollback _ _ _ _ _ (by decide)⟩

/-! ## C1: commit_journal success -/

/-- C1. When the journal bears the valid magic and `commit_journal` succeeds, the
dirty set is empty, `committed_db_size` equals `current_db_size`, and the new
position's txid is the previous txid plus one (`1` for a previously null
position). -/
theorem commit_journal_success (cks : Nat → β → Nat) (lease : Option String)
    (wOk : Bool) (st : DbState β)
    (hok : (commit_journal cks VALID_JOURNAL_HDR lease wOk st).1 = Except.ok ()) :
    (commit_journal cks VALID_JOURNAL_HDR lease wOk st).2.dirtyPages = [] ∧
    (commit_journal cks VALID_JOURNAL_HDR lease wOk st).2.committedDbSize =
      (commit_journal cks VALID_JOURNAL_HDR lease wOk st).2.currentDbSize ∧
    ∃ p, (commit_journal cks VALID_JOURNAL_HDR lease wOk st).2.pos = some p ∧
      p.txid = nextTxid st.pos := by
  have hne : ¬(VALID_JOURNAL_HDR ≠ VALID_JOURNAL_HDR) := fun h => h rfl
  unfold commit_journal at hok ⊢
  rw [if_neg hne] at hok ⊢
  cases hinner : commit_journal_inner cks lease wOk (nextTxid st.pos) st with
  | error e => rw [hinner] at hok; exact Except.noConfusion hok
  | ok p => exact ⟨rfl, rfl, p, rfl, commit_journal_inner_txid _ _ _ _ _ _ hinner⟩

/-- C1 witness: the first commit of a one-page database goes through and lands at
txid 1. -/
theorem commit_journal_success_witness :
    ((commit_journal (fun n d => n + d) VALID_JOURNAL_HDR (some ("l")) true c1St).1
        = Except.ok ()) ∧
    ((commit_journal (fun n d => n + d) VALID_JOURNAL_HDR (some ("l")) true
        c1St).2.dirtyPages = [] ∧
      (commit_journal (fun n d => n + d) VALID_JOURNAL_HDR (some ("l")) true
          c1St).2.committedDbSize =
        (commit_journal (fun n d => n + d) VALID_JOURNAL_HDR (some ("l")) true
          c1St).2.currentDbSize ∧
      ∃ p, (commit_journal (fun n d => n + d) VALID_JOURNAL_HDR (some ("l")) true
          c1St).2.pos = some p ∧ p.txid = nextTxid c1St.pos) :=
  ⟨rfl, commit_journal_success _ _ _ _ rfl⟩

/-! ## C3: commit_journal failure -/

/-- C3. When the journal bears the valid magic and `commit_journal` fails, the
dirty set is cleared and every page that was dirty before the call has been deleted
from the pager cache (`has_page` is `false` for each of them). -/
theorem commit_journal_failure (cks : Nat → β → Nat) (lease : Option String)
    (wOk : Bool) (st : DbState β) (e : IoError)
    (he : (commit_journal cks VALID_JOURNAL_HDR lease wOk st).1 = Except.error e) :
    (commit_journal cks VALID_JOURNAL_HDR lease wOk st).2.dirtyPages = [] ∧
    ∀ n ∈ st.dirtyPages.map Prod.fst,
      has_page (commit_journal cks VALID_JOURNAL_HDR lease wOk st).2.cache n = false := by
  have hne : ¬(VALID_JOURNAL_HDR ≠ VALID_JOURNAL_HDR) := fun h => h rfl
  unfold commit_journal at he ⊢
  rw [if_neg hne] at he ⊢
  cases hinner : commit_journal_inner cks lease wOk (nextTxid st.pos) st with
  | ok p => rw [hinner] at he; exact Except.noConfusion he
  | error e2 =>
    refine ⟨rfl, ?_⟩
    intro n hn
    show (delPages st.cache (st.dirtyPages.map Prod.fst) n).isSome = false
    rw [delPages_mem _ _ _ hn]
    rfl

/-- C3 witness: a commit attempted without a write lease fails and wipes the dirty
page from the cache. -/
theorem commit_journal_failure_witness :
    ((commit_journal (fun n d => n + d) VALID_JOURNAL_HDR Option.none true c3St).1
        = Except.error ⟨.permissionDenied, Option.none⟩) ∧
    ((commit_journal (fun n d => n + d) VALID_JOURNAL_HDR Option.none true
        c3St).2.dirtyPages = [] ∧
      ∀ n ∈ c3St.dirtyPages.map Prod.fst,
        has_page (commit_journal (fun n d => n + d) VALID_JOURNAL_HDR Option.none true
          c3St).2.cache n = false) :=
  ⟨rfl, commit_journal_failure _ _ _ _ ⟨.permissionDenied, Option.none⟩ rfl⟩

/-! ## C7: writes under WAL mode -/

/-- C7 counterexample. The claim says every `write_at` against a WAL-mode database
returns an `Unsupported` error; but `write_at` checks the write lease first, so
without a lease the call fails with `PermissionDenied` instead. -/
theorem write_at_wal_cex :
    errKind (write_at (fun n d => n + d) (fun _ => some 512) (fun _ => some 1)
        Option.none 2 (5 : Nat) walSt).1 = some IoErrorKind.permissionDenied ∧
    IoErrorKind.permissionDenied ≠ IoErrorKind.unsupported := by
  decide

/-- C7 (amended). Against a WAL-mode database whose page size is known, and with a
write lease held (and, for an offset-0 write, a parseable header), `write_at`
returns an `Unsupported` error and leaves the dirty set, the position and the page
cache untouched. -/
theorem write_at_wal_unsupported (cks : Nat → β → Nat) (pPS pC : β → Option Nat)
    (l : String) (pgno : Nat) (d : β) (st : DbState β) (ps : Nat)
    (hw : st.wal = true) (hps : st.pageSize = some ps)
    (hpc : pgno = 1 → (pC d).isSome) :
    (write_at cks pPS pC (some l) pgno d st).1 =
      Except.error ⟨.unsupported, Option.none⟩ ∧
    (write_at cks pPS pC (some l) pgno d st).2.dirtyPages = st.dirtyPages ∧
    (write_at cks pPS pC (some l) pgno d st).2.pos = st.pos ∧
    (write_at cks pPS pC (some l) pgno d st).2.cache = st.cache := by
  unfold write_at
  by_cases h1 : pgno = 1
  · obtain ⟨c, hc⟩ := Option.isSome_iff_exists.mp (hpc h1)
    subst h1
    simp [hps, hc, hw]
  · simp [h1, hw]

/-- C7 witness: with a lease held, a write to page 2 of the WAL-mode database is
refused as unsupported and changes nothing. -/
theorem write_at_wal_unsupported_witness :
    walSt.wal = true ∧ walSt.pageSize = some 512 ∧
    ((2 : Nat) = 1 → ((fun _ => some 1) (5 : Nat)).isSome) ∧
    ((write_at (fun n d => n + d) (fun _ => some 512) (fun _ => some 1)
        (some ("l")) 2 (5 : Nat) walSt).1 =
      Except.error ⟨.unsupported, Option.none⟩ ∧
    (write_at (fun n d => n + d) (fun _ => some 512) (fun _ => some 1)
        (some ("l")) 2 (5 : Nat) walSt).2.dirtyPages = walSt.dirtyPages ∧
    (write_at (fun n d => n + d) (fun _ => some 512) (fun _ => some 1)
        (some ("l")) 2 (5 : Nat) walSt).2.pos = walSt.pos ∧
    (write_at (fun n d => n + d) (fun _ => some 512) (fun _ => some 1)
        (some ("l")) 2 (5 : Nat) walSt).2.cache = walSt.cache) :=
  ⟨rfl, rfl, by decide,
    write_at_wal_unsupported _ _ _ _ _ _ walSt 512 rfl rfl (by decide)⟩

/-! ## C10: sync_one position monotonicity -/

/-- C10. `sync_one` never moves the tracked position backwards: the server-reported
position and change set are applied exactly when the reported txid is at least the
locally known one (an absent position counting as txid 0), so the tracked txid is
non-decreasing. -/
theorem sync_one_position_monotone (db : SyncerDb) (reported : LChanges) (now : Nat) :
    txidOf db.position ≤ txidOf (sync_one db reported now).position ∧
    (txidOf db.position ≤ txidOf reported.pos →
      (sync_one db reported now).position = reported.pos) ∧
    (txidOf reported.pos < txidOf db.position → sync_one db reported now = db) := by
  unfold sync_one
  by_cases h : txidOf db.position ≤ txidOf reported.pos
  · refine ⟨?_, ?_, ?_⟩
    · simpa [if_pos h] using h
    · intro _; simp [if_pos h]
    · intro h2; omega
  · refine ⟨?_, ?_, ?_⟩
    · simp [if_neg h]
    · intro h2; exact absurd h2 h
    · intro _; simp [if_neg h]

/-! ## C9: per-query read budget -/

/-- C9. Once the count of remotely served reads reaches the per-query cap (the
default is 64), the `local_only` flag is set, a cache miss fails with `WouldBlock`
leaving the handle unchanged (so later reads keep failing), a cache hit still
succeeds without touching the counter, and a lock transition to `None` resets the
counter to zero. -/
theorem read_budget (h : HandleState) (remoteRes : Except IoError Unit) (s : Inner)
    (hmax : 0 < h.maxPagesPerQuery) (hcur : h.maxPagesPerQuery ≤ h.curPagesPerQuery) :
    localOnlyFlag h = true ∧
    read_exact_at h false remoteRes = (Except.error ⟨.wouldBlock, Option.none⟩, h) ∧
    read_exact_at h true remoteRes = (Except.ok (), h) ∧
    (handle_lock s h LockKind.none).2.curPagesPerQuery = 0 ∧
    DEFAULT_MAX_REQS_PER_QUERY = 64 := by
  have hflag : localOnlyFlag h = true := by
    simp [localOnlyFlag, hmax, hcur]
  refine ⟨hflag, ?_, ?_, ?_, rfl⟩
  · simp [read_exact_at, hflag]
  · simp [read_exact_at]
  · simp [handle_lock]

/-- C9 witness: a handle at the default cap with its counter saturated. -/
theorem read_budget_witness :
    0 < (⟨64, 64, LockKind.shared⟩ : HandleState).maxPagesPerQuery ∧
    (⟨64, 64, LockKind.shared⟩ : HandleState).maxPagesPerQuery ≤
      (⟨64, 64, LockKind.shared⟩ : HandleState).curPagesPerQuery ∧
    (localOnlyFlag ⟨64, 64, LockKind.shared⟩ = true ∧
      read_exact_at ⟨64, 64, LockKind.shared⟩ false (Except.ok ()) =
        (Except.error ⟨.wouldBlock, Option.none⟩, ⟨64, 64, LockKind.shared⟩) ∧
      read_exact_at ⟨64, 64, LockKind.shared⟩ true (Except.ok ()) =
        (Except.ok (), ⟨64, 64, LockKind.shared⟩) ∧
      (handle_lock ⟨1, Option.none⟩ ⟨64, 64, LockKind.shared⟩
          LockKind.none).2.curPagesPerQuery = 0 ∧
      DEFAULT_MAX_REQS_PER_QUERY = 64) :=
  ⟨by decide, by decide,
    read_budget ⟨64, 64, LockKind.shared⟩ (Except.ok ()) ⟨1, Option.none⟩
      (by decide) (by decide)⟩

/-! ## C2: commit-checksum round-trip -/

theorem xor_shuffle1 (a p t q : Nat) :
    (a ^^^ p) ^^^ (t ^^^ (p ^^^ q)) = (a ^^^ t) ^^^ q := by
  apply Nat.eq_of_testBit_eq
  intro i
  simp only [Nat.testBit_xor]
  cases a.testBit i <;> cases p.testBit i <;> cases t.testBit i <;> cases q.testBit i <;> rfl

theorem xor_shuffle2 (a p t : Nat) : (a ^^^ p) ^^^ t = (a ^^^ t) ^^^ p := by
  apply Nat.eq_of_testBit_eq
  intro i
  simp only [Nat.testBit_xor]
  cases a.testBit i <;> cases p.testBit i <;> cases t.testBit i <;> rfl

theorem foldXor_cons (cks : Nat → β → Nat) (cache : Nat → Option β)
    (q : Nat × Option Nat) (l : List (Nat × Option Nat)) :
    foldXor cks cache (q :: l) = contribD cks cache q ^^^ foldXor cks cache l := rfl

theorem commitChecksumLoop_eq_foldXor (cks : Nat → β → Nat) (cache : Nat → Option β) :
    ∀ (l : List (Nat × Option Nat)) (acc : Nat),
      (∀ p ∈ l, (cache p.1).isSome) →
      commitChecksumLoop cks cache l acc = some (acc ^^^ foldXor cks cache l) := by
  intro l
  induction l with
  | nil => intro acc _; simp [commitChecksumLoop, foldXor]
  | cons q l ih =>
    intro acc hl
    obtain ⟨n, prev⟩ := q
    obtain ⟨d, hd⟩ := Option.isSome_iff_exists.mp (hl (n, prev) (List.mem_cons_self _ l))
    have hrest : ∀ p ∈ l, (cache p.1).isSome :=
      fun p hp => hl p (List.mem_cons_of_mem _ hp)
    simp only [commitChecksumLoop, hd]
    cases prev with
    | none =>
      rw [ih _ hrest, foldXor_cons]
      simp only [contribD, pk, hd]
      simp only [Nat.zero_xor, Nat.xor_assoc]
    | some c =>
      rw [ih _ hrest, foldXor_cons]
      simp only [contribD, pk, hd]
      simp only [Nat.xor_assoc]

theorem foldXor_filter_succ (cks : Nat → β → Nat) (cache : Nat → Option β) (k : Nat) :
    ∀ (l : List (Nat × Option Nat)), (l.map Prod.fst).Nodup →
      foldXor cks cache (l.filter (fun p => p.1 ≤ k + 1)) =
        foldXor cks cache (l.filter (fun p => p.1 ≤ k)) ^^^
          (match l.find? (fun p => p.1 = k + 1) with
           | some p => contribD cks cache p
           | Option.none => 0) := by
  intro l
  induction l with
  | nil => intro _; simp [foldXor]
  | cons q l ih =>
    intro hnd
    have hq : q.1 ∉ l.map Prod.fst := by
      simp only [List.map_cons, List.nodup_cons] at hnd
      exact hnd.1
    have hnd2 : (l.map Prod.fst).Nodup := by
      simp only [List.map_cons, List.nodup_cons] at hnd
      exact hnd.2
    by_cases h1 : q.1 ≤ k
    · have h2 : q.1 ≤ k + 1 := Nat.le_succ_of_le h1
      have h3 : ¬(q.1 = k + 1) := by omega
      rw [List.filter_cons_of_pos (by simpa using h2), List.filter_cons_of_pos (by simpa using h1),
        List.find?_cons_of_neg l (by simpa using h3), foldXor_cons, foldXor_cons,
        ih hnd2, Nat.xor_assoc]
    · by_cases h4 : q.1 = k + 1
      · have h5 : q.1 ≤ k + 1 := Nat.le_of_eq h4
        have hcg : List.filter (fun p => decide (p.1 ≤ k + 1)) l =
            List.filter (fun p => decide (p.1 ≤ k)) l := by
          apply List.filter_congr
          intro p hp
          have hpne : p.1 ≠ k + 1 := by
            intro he
            exact hq (h4 ▸ he ▸ List.mem_map_of_mem Prod.fst hp)
          simp only [decide_eq_decide]
          omega
        rw [List.filter_cons_of_pos (by simpa using h5),
          List.filter_cons_of_neg (by simpa using h1),
          List.find?_cons_of_pos l (by simpa using h4), foldXor_cons, hcg]
        exact Nat.xor_comm _ _
      · have h5 : ¬(q.1 ≤ k + 1) := by omega
        rw [List.filter_cons_of_neg (by simpa using h5),
          List.filter_cons_of_neg (by simpa using h1),
          List.find?_cons_of_neg l (by simpa using h4)]
        exact ih hnd2

theorem dirtyLookup_cons (q : Nat × Option Nat) (l : List (Nat × Option Nat)) (n : Nat) :
    dirtyLookup (q :: l) n = if q.1 = n then some q.2 else dirtyLookup l n := by
  by_cases h : q.1 = n
  · rw [dirtyLookup, List.find?_cons_of_pos _ (by simpa using h), if_pos h]
    rfl
  · rw [dirtyLookup, List.find?_cons_of_neg _ (by simpa using h), if_neg h]
    rfl

theorem dirtyLookup_eq_none_iff (n : Nat) :
    ∀ (l : List (Nat × Option Nat)), dirtyLookup l n = Option.none ↔ n ∉ l.map Prod.fst := by
  intro l
  induction l with
  | nil => simp [dirtyLookup]
  | cons q l ih =>
    rw [dirtyLookup_cons]
    by_cases h : q.1 = n
    · subst h
      simp
    · simp only [if_neg h, ih, List.map_cons, List.mem_cons]
      constructor
      · intro hx hor
        rcases hor with hor | hor
        · exact h hor.symm
        · exact hx hor
      · intro hx hm
        exact hx (Or.inr hm)

theorem mem_dirtyInsert (n : Nat) (v : Option Nat) :
    ∀ (l : List (Nat × Option Nat)) (x : Nat × Option Nat),
      x ∈ dirtyInsert n v l → x = (n, v) ∨ x ∈ l := by
  intro l
  induction l with
  | nil =>
    intro x hx
    simp [dirtyInsert] at hx
    exact Or.inl hx
  | cons q l ih =>
    obtain ⟨m, w⟩ := q
    intro x hx
    rw [dirtyInsert] at hx
    split_ifs at hx with h1 h2
    · rcases List.mem_cons.mp hx with h | h
      · exact Or.inl h
      · exact Or.inr h
    · exact Or.inr hx
    · rcases List.mem_cons.mp hx with h | h
      · exact Or.inr (h ▸ List.mem_cons_self _ l)
      · rcases ih x h with h | h
        · exact Or.inl h
        · exact Or.inr (List.mem_cons_of_mem _ h)

theorem dirtyInsert_sorted (n : Nat) (v : Option Nat) :
    ∀ (l : List (Nat × Option Nat)), dirtySorted l → dirtySorted (dirtyInsert n v l) := by
  intro l
  induction l with
  | nil => intro _; exact List.pairwise_singleton _ _
  | cons q l ih =>
    obtain ⟨m, w⟩ := q
    intro hs
    obtain ⟨hm, hl⟩ := List.pairwise_cons.mp hs
    rw [dirtyInsert]
    split_ifs with h1 h2
    · exact List.Pairwise.cons
        (fun x hx => by
          rcases List.mem_cons.mp hx with h | h
          · rw [h]; exact h1
          · exact Nat.lt_trans h1 (hm x h))
        hs
    · exact hs
    · exact List.Pairwise.cons
        (fun x hx => by
          rcases mem_dirtyInsert n v l x hx with h | h
          · rw [h]; omega
          · exact hm x h)
        (ih hl)

theorem dirtySorted_nodup_keys (l : List (Nat × Option Nat)) (hs : dirtySorted l) :
    (l.map Prod.fst).Nodup := by
  have h2 : List.Pairwise (fun a b : Nat => a < b) (l.map Prod.fst) :=
    List.Pairwise.map Prod.fst (fun a b h => h) hs
  exact h2.imp Nat.ne_of_lt

theorem dirtyLookup_dirtyInsert_self (n : Nat) (v : Option Nat) :
    ∀ (l : List (Nat × Option Nat)), dirtySorted l →
      dirtyLookup (dirtyInsert n v l) n = some ((dirtyLookup l n).getD v) := by
  intro l
  induction l with
  | nil =>
    intro _
    rw [show dirtyInsert n v [] = [(n, v)] from rfl, dirtyLookup_cons, if_pos rfl]
    rfl
  | cons q l ih =>
    obtain ⟨m, w⟩ := q
    intro hs
    obtain ⟨hm, hl⟩ := List.pairwise_cons.mp hs
    rw [dirtyInsert]
    split_ifs with h1 h2
    · rw [dirtyLookup_cons, if_pos rfl, dirtyLookup_cons,
        if_neg (by simp; omega)]
      have hnone : dirtyLookup l n = Option.none := by
        rw [dirtyLookup_eq_none_iff]
        intro hmem
        obtain ⟨x, hx, hx1⟩ := List.mem_map.mp hmem
        have := hm x hx
        omega
      rw [hnone]
      rfl
    · rw [dirtyLookup_cons, if_pos (by simp [h2])]
      rfl
    · rw [dirtyLookup_cons, if_neg (by simp; omega), dirtyLookup_cons, if_neg (by simp; omega)]
      exact ih hl

theorem dirtyLookup_dirtyInsert_ne (n : Nat) (v : Option Nat) (x : Nat) (hx : x ≠ n) :
    ∀ (l : List (Nat × Option Nat)),
      dirtyLookup (dirtyInsert n v l) x = dirtyLookup l x := by
  intro l
  induction l with
  | nil =>
    rw [show dirtyInsert n v [] = [(n, v)] from rfl, dirtyLookup_cons,
      if_neg (by simp; omega)]
  | cons q l ih =>
    obtain ⟨m, w⟩ := q
    rw [dirtyInsert]
    split_ifs with h1 h2
    · rw [dirtyLookup_cons, if_neg (by simp; omega)]
    · rfl
    · rw [dirtyLookup_cons, dirtyLookup_cons]
      by_cases hmx : m = x
      · rw [if_pos hmx, if_pos hmx]
      · rw [if_neg hmx, if_neg hmx]
        exact ih

theorem dirtyLookup_eq_some_of_mem :
    ∀ (l : List (Nat × Option Nat)), (l.map Prod.fst).Nodup →
      ∀ (n : Nat) (v : Option Nat), (n, v) ∈ l → dirtyLookup l n = some v := by
  intro l
  induction l with
  | nil => intro _ n v h; cases h
  | cons q l ih =>
    intro hnd n v h
    have hq : q.1 ∉ l.map Prod.fst := by
      simp only [List.map_cons, List.nodup_cons] at hnd
      exact hnd.1
    have hndl : (l.map Prod.fst).Nodup := by
      simp only [List.map_cons, List.nodup_cons] at hnd
      exact hnd.2
    rw [dirtyLookup_cons]
    rcases List.mem_cons.mp h with h | h
    · rw [if_pos (by rw [← h]), ← h]
    · have hne : q.1 ≠ n := by
        intro he
        exact hq (he ▸ List.mem_map_of_mem Prod.fst h)
      rw [if_neg hne]
      exact ih hndl n v h

theorem mem_of_dirtyLookup_eq_some (l : List (Nat × Option Nat)) (n : Nat) (v : Option Nat)
    (h : dirtyLookup l n = some v) : (n, v) ∈ l := by
  unfold dirtyLookup at h
  cases hf : l.find? (fun p => p.1 = n) with
  | none => rw [hf] at h; cases h
  | some p =>
    rw [hf] at h
    have hp1 : p.1 = n := by simpa using List.find?_some hf
    have hp2 : p.2 = v := by simpa using h
    have hm := List.mem_of_find?_eq_some hf
    have hpv : p = (n, v) := Prod.ext hp1 hp2
    exact hpv ▸ hm

theorem xorAgree (cks : Nat → β → Nat) (c0 c1 : Nat → Option β) (s0 K : Nat)
    (D : List (Nat × Option Nat))
    (hnd : (D.map Prod.fst).Nodup)
    (hpos : ∀ p ∈ D, 1 ≤ p.1)
    (hval : ∀ p ∈ D, p.2 = if s0 < p.1 then Option.none else (c0 p.1).map (cks p.1))
    (hframe : ∀ n, n ∉ D.map Prod.fst → c1 n = c0 n)
    (hcov : ∀ n, s0 < n → n ≤ K → n ∈ D.map Prod.fst) :
    ∀ k, k ≤ K →
      xorPages cks c0 (min k s0) ^^^ foldXor cks c1 (D.filter (fun p => p.1 ≤ k))
        = xorPages cks c1 k := by
  intro k
  induction k with
  | zero =>
    intro _
    have hfil : D.filter (fun p => p.1 ≤ 0) = [] := by
      rw [List.filter_eq_nil_iff]
      intro p hp
      have := hpos p hp
      simp only [decide_eq_true_eq]
      omega
    rw [hfil]
    simp [xorPages, foldXor]
  | succ k ih =>
    intro hk
    have ihk := ih (Nat.le_of_succ_le hk)
    rw [foldXor_filter_succ cks c1 k D hnd]
    cases hf : D.find? (fun p => p.1 = k + 1) with
    | some p =>
      dsimp only
      have hp1 : p.1 = k + 1 := by simpa using List.find?_some hf
      have hpD := List.mem_of_find?_eq_some hf
      have hval1 := hval p hpD
      rw [hp1] at hval1
      by_cases hks : k + 1 ≤ s0
      · rw [Nat.min_eq_left (by omega : k ≤ s0)] at ihk
        rw [if_neg (by omega)] at hval1
        have hcontrib : contribD cks c1 p = pk cks c0 (k + 1) ^^^ pk cks c1 (k + 1) := by
          rw [contribD, hval1, hp1]
          cases hc : c0 (k + 1) <;> simp [pk, hc]
        rw [Nat.min_eq_left hks, hcontrib,
          show xorPages cks c0 (k + 1) = xorPages cks c0 k ^^^ pk cks c0 (k + 1) from rfl,
          show xorPages cks c1 (k + 1) = xorPages cks c1 k ^^^ pk cks c1 (k + 1) from rfl,
          xor_shuffle1, ihk]
      · rw [Nat.min_eq_right (by omega : s0 ≤ k)] at ihk
        rw [if_pos (by omega)] at hval1
        have hcontrib : contribD cks c1 p = pk cks c1 (k + 1) := by
          rw [contribD, hval1, hp1]
          exact Nat.zero_xor _
        rw [Nat.min_eq_right (by omega : s0 ≤ k + 1), hcontrib,
          show xorPages cks c1 (k + 1) = xorPages cks c1 k ^^^ pk cks c1 (k + 1) from rfl,
          ← Nat.xor_assoc, ihk]
    | none =>
      dsimp only
      have hnotin : (k + 1) ∉ D.map Prod.fst := by
        intro hmem
        obtain ⟨p, hp, hp1⟩ := List.mem_map.mp hmem
        have := List.find?_eq_none.mp hf p hp
        simp only [decide_eq_true_eq] at this
        exact this hp1
      by_cases hks : k + 1 ≤ s0
      · rw [Nat.min_eq_left (by omega : k ≤ s0)] at ihk
        have hpk : pk cks c1 (k + 1) = pk cks c0 (k + 1) := by
          rw [pk, pk, hframe _ hnotin]
        rw [Nat.min_eq_left hks, Nat.xor_zero,
          show xorPages cks c0 (k + 1) = xorPages cks c0 k ^^^ pk cks c0 (k + 1) from rfl,
          show xorPages cks c1 (k + 1) = xorPages cks c1 k ^^^ pk cks c1 (k + 1) from rfl,
          hpk, xor_shuffle2, ihk]
      · exact absurd (hcov (k + 1) (by omega) hk) hnotin

theorem commitLoop_xor (cks : Nat → β → Nat) (c0 c1 : Nat → Option β) (s0 K : Nat)
    (D : List (Nat × Option Nat))
    (hnd : (D.map Prod.fst).Nodup)
    (hpos : ∀ p ∈ D, 1 ≤ p.1)
    (hval : ∀ p ∈ D, p.2 = if s0 < p.1 then Option.none else (c0 p.1).map (cks p.1))
    (hframe : ∀ n, n ∉ D.map Prod.fst → c1 n = c0 n)
    (hcov : ∀ n, s0 < n → n ≤ K → n ∈ D.map Prod.fst)
    (hs0 : s0 ≤ K)
    (hcached : ∀ p ∈ D, (c1 p.1).isSome) :
    commitChecksumLoop cks c1 (D.filter (fun p => p.1 ≤ K)) (xorPages cks c0 s0)
      = some (xorPages cks c1 K) := by
  rw [commitChecksumLoop_eq_foldXor cks c1 _ _
    (fun p hp => hcached p (List.mem_of_mem_filter hp))]
  have h := xorAgree cks c0 c1 s0 K D hnd hpos hval hframe hcov K (Nat.le_refl K)
  rw [Nat.min_eq_right hs0] at h
  rw [h]

theorem origOf_congr (cks : Nat → β → Nat) (st st2 : DbState β) (m : Nat)
    (hc : st2.committedDbSize = st.committedDbSize) (hca : st2.cache m = st.cache m) :
    origOf cks st2 m = origOf cks st m := by
  rw [origOf, origOf, hc, hca]

theorem write_at_ok_spec (cks : Nat → β → Nat) (pPS pC : β → Option Nat) (l : String)
    (pgno : Nat) (d : β) (st : DbState β)
    (hw : st.wal = false)
    (h : (write_at cks pPS pC (some l) pgno d st).1 = Except.ok ()) :
    (write_at cks pPS pC (some l) pgno d st).2.pos = st.pos ∧
    (write_at cks pPS pC (some l) pgno d st).2.committedDbSize = st.committedDbSize ∧
    (write_at cks pPS pC (some l) pgno d st).2.wal = false ∧
    (∀ ps, st.pageSize = some ps →
      (write_at cks pPS pC (some l) pgno d st).2.pageSize = some ps) ∧
    ((write_at cks pPS pC (some l) pgno d st).2.pageSize).isSome ∧
    (write_at cks pPS pC (some l) pgno d st).2.cache = put_page st.cache pgno d ∧
    ((∃ ps, (write_at cks pPS pC (some l) pgno d st).2.pageSize = some ps ∧
        pgno = lockPage ps ∧
        (write_at cks pPS pC (some l) pgno d st).2.dirtyPages = st.dirtyPages) ∨
      ((∀ ps, (write_at cks pPS pC (some l) pgno d st).2.pageSize = some ps →
          pgno ≠ lockPage ps) ∧
        (write_at cks pPS pC (some l) pgno d st).2.dirtyPages =
          dirtyInsert pgno (origOf cks st pgno) st.dirtyPages)) := by
  by_cases hp1 : pgno = 1
  · subst hp1
    cases hps : st.pageSize with
    | none =>
      cases hpps : pPS d with
      | none => simp [write_at, hps, hpps] at h
      | some ps =>
        cases hpc : pC d with
        | none => simp [write_at, hps, hpps, hpc] at h
        | some c =>
          by_cases hlk : 1 = lockPage ps
          · simp only [write_at, hps, hpps, hpc, hw, eq_true hlk, if_true, if_false,
              Bool.false_eq_true, origOf]
            exact ⟨by trivial, by trivial, by trivial,
              fun ps2 hps2 => Option.noConfusion hps2, by trivial, by trivial,
              Or.inl ⟨ps, by trivial, hlk, by trivial⟩⟩
          · simp only [write_at, hps, hpps, hpc, hw, eq_false hlk, if_true, if_false,
              Bool.false_eq_true, origOf]
            refine ⟨by trivial, by trivial, by trivial,
              fun ps2 hps2 => Option.noConfusion hps2, by trivial, by trivial,
              Or.inr ⟨?_, by trivial⟩⟩
            intro ps2 hps2
            cases hps2
            exact hlk
    | some ps0 =>
      cases hpc : pC d with
      | none => simp [write_at, hps, hpc] at h
      | some c =>
        by_cases hlk : 1 = lockPage ps0
        · simp only [write_at, hps, hpc, hw, eq_true hlk, if_true, if_false,
            Bool.false_eq_true, origOf]
          exact ⟨by trivial, by trivial, by trivial, fun ps2 hps2 => hps2,
            by trivial, by trivial, Or.inl ⟨ps0, by trivial, hlk, by trivial⟩⟩
        · simp only [write_at, hps, hpc, hw, eq_false hlk, if_true, if_false,
            Bool.false_eq_true, origOf]
          refine ⟨by trivial, by trivial, by trivial, fun ps2 hps2 => hps2,
            by trivial, by trivial, Or.inr ⟨?_, by trivial⟩⟩
          intro ps2 hps2
          cases hps2
          exact hlk
  · cases hps : st.pageSize with
    | none => simp [write_at, hp1, hps, hw] at h
    | some ps0 =>
      by_cases hlk : pgno = lockPage ps0
      · simp only [write_at, hp1, hps, hw, eq_true hlk, if_true, if_false,
          Bool.false_eq_true, origOf]
        exact ⟨by trivial, by trivial, by trivial, fun ps2 hps2 => hps2,
          by trivial, by trivial, Or.inl ⟨ps0, by trivial, hlk, by trivial⟩⟩
      · simp only [write_at, hp1, hps, hw, eq_false hlk, if_true, if_false,
          Bool.false_eq_true, origOf]
        refine ⟨by trivial, by trivial, by trivial, fun ps2 hps2 => hps2,
          by trivial, by trivial, Or.inr ⟨?_, by trivial⟩⟩
        intro ps2 hps2
        cases hps2
        exact hlk

theorem runWrites_spec (cks : Nat → β → Nat) (pPS pC : β → Option Nat) (l : String) :
    ∀ (ws : List (Nat × β)) (st st1 : DbState β),
      st.wal = false → dirtySorted st.dirtyPages →
      runWrites cks pPS pC (some l) ws st = Except.ok st1 →
      (st1.pos = st.pos ∧ st1.committedDbSize = st.committedDbSize ∧ st1.wal = false) ∧
      (∀ ps, st.pageSize = some ps → st1.pageSize = some ps) ∧
      (∀ m, m ∉ ws.map Prod.fst →
        st1.cache m = st.cache m ∧
        dirtyLookup st1.dirtyPages m = dirtyLookup st.dirtyPages m) ∧
      (∀ m ∈ ws.map Prod.fst, (st1.cache m).isSome) ∧
      (∀ m, dirtyLookup st1.dirtyPages m ≠ Option.none →
        dirtyLookup st.dirtyPages m ≠ Option.none ∨ m ∈ ws.map Prod.fst) ∧
      dirtySorted st1.dirtyPages ∧
      (∀ m ∈ ws.map Prod.fst, (∀ ps, st1.pageSize = some ps → m ≠ lockPage ps) →
        dirtyLookup st1.dirtyPages m =
          (dirtyLookup st.dirtyPages m).orElse (fun _ => some (origOf cks st m))) := by
  intro ws
  induction ws with
  | nil =>
    intro st st1 hw hsort hrun
    cases hrun
    exact ⟨⟨rfl, rfl, hw⟩, fun ps h => h, fun m _ => ⟨rfl, rfl⟩,
      fun m hm => absurd hm (List.not_mem_nil m),
      fun m hm => Or.inl hm, hsort,
      fun m hm => absurd hm (List.not_mem_nil m)⟩
  | cons w ws ih =>
    obtain ⟨n, d⟩ := w
    intro st st1 hw hsort hrun
    rw [runWrites] at hrun
    rcases hwa : write_at cks pPS pC (some l) n d st with ⟨res, stm⟩
    rw [hwa] at hrun
    cases res with
    | error e => exact Except.noConfusion hrun
    | ok u =>
      have hspec := write_at_ok_spec cks pPS pC l n d st hw (by rw [hwa])
      rw [hwa] at hspec
      obtain ⟨hpos, hcom, hwal, hmono, hpsome, hcache, hdirty⟩ := hspec
      have hsortm : dirtySorted stm.dirtyPages := by
        rcases hdirty with ⟨ps, _, _, hd⟩ | ⟨_, hd⟩
        · rw [hd]; exact hsort
        · rw [hd]; exact dirtyInsert_sorted _ _ _ hsort
      obtain ⟨⟨ipos, icom, iwal⟩, imono, iframe, isome, inew, isort, iorig⟩ :=
        ih stm st1 hwal hsortm hrun
      have hnl : (∀ ps, st1.pageSize = some ps → n ≠ lockPage ps) →
          stm.dirtyPages = dirtyInsert n (origOf cks st n) st.dirtyPages := by
        intro hcnd
        rcases hdirty with ⟨ps, hpseq, hlk, _⟩ | ⟨_, hd⟩
        · exact absurd hlk (hcnd ps (imono ps hpseq))
        · exact hd
      have hkeys : ((n, d) :: ws).map Prod.fst = n :: ws.map Prod.fst := rfl
      have hC : ∀ m, m ∉ ((n, d) :: ws).map Prod.fst →
          st1.cache m = st.cache m ∧
          dirtyLookup st1.dirtyPages m = dirtyLookup st.dirtyPages m := by
        intro m hm
        rw [hkeys] at hm
        have hmn : m ≠ n := fun he => hm (he ▸ List.mem_cons_self _ _)
        have hmw : m ∉ ws.map Prod.fst := fun he => hm (List.mem_cons_of_mem _ he)
        obtain ⟨ic, idl⟩ := iframe m hmw
        constructor
        · rw [ic, hcache]
          simp [put_page, hmn]
        · rw [idl]
          rcases hdirty with ⟨ps, _, _, hd⟩ | ⟨_, hd⟩
          · rw [hd]
          · rw [hd, dirtyLookup_dirtyInsert_ne n _ m hmn]
      refine ⟨⟨ipos.trans hpos, icom.trans hcom, iwal⟩,
        fun ps h => imono ps (hmono ps h), hC, ?_, ?_, isort, ?_⟩
      · intro m hm
        rw [hkeys] at hm
        rcases List.mem_cons.mp hm with he | hm2
        · subst he
          by_cases hmw : m ∈ ws.map Prod.fst
          · exact isome m hmw
          · obtain ⟨ic, _⟩ := iframe m hmw
            rw [ic, hcache]
            simp [put_page]
        · exact isome m hm2
      · intro m hne
        by_cases hmem : m ∈ ((n, d) :: ws).map Prod.fst
        · exact Or.inr hmem
        · obtain ⟨_, idl⟩ := hC m hmem
          rw [idl] at hne
          exact Or.inl hne
      · intro m hm hcond
        rw [hkeys] at hm
        rcases List.mem_cons.mp hm with he | hm2
        · subst he
          have hstm : stm.dirtyPages = dirtyInsert m (origOf cks st m) st.dirtyPages :=
            hnl hcond
          by_cases hmw : m ∈ ws.map Prod.fst
          · rw [iorig m hmw hcond, hstm,
              dirtyLookup_dirtyInsert_self m _ st.dirtyPages hsort]
            cases hst : dirtyLookup st.dirtyPages m <;> simp [Option.orElse]
          · obtain ⟨_, idl⟩ := iframe m hmw
            rw [idl, hstm, dirtyLookup_dirtyInsert_self m _ st.dirtyPages hsort]
            cases hst : dirtyLookup st.dirtyPages m <;> simp [Option.orElse]
        · by_cases hmn : m = n
          · subst hmn
            have hstm : stm.dirtyPages = dirtyInsert m (origOf cks st m) st.dirtyPages :=
              hnl hcond
            rw [iorig m hm2 hcond, hstm,
              dirtyLookup_dirtyInsert_self m _ st.dirtyPages hsort]
            cases hst : dirtyLookup st.dirtyPages m <;> simp [Option.orElse]
          · have hlm : dirtyLookup stm.dirtyPages m = dirtyLookup st.dirtyPages m := by
              rcases hdirty with ⟨ps, _, _, hd⟩ | ⟨_, hd⟩
              · rw [hd]
              · rw [hd, dirtyLookup_dirtyInsert_ne n _ m hmn]
            have hom : origOf cks stm m = origOf cks st m := by
              refine origOf_congr cks st stm m hcom ?_
              rw [hcache]
              simp [put_page, hmn]
            rw [iorig m hm2 hcond, hlm, hom]

theorem commit_journal_inner_ok (cks : Nat → β → Nat) (lease : Option String) (wOk : Bool)
    (txid : Nat) (st : DbState β) (p : Pos)
    (h : commit_journal_inner cks lease wOk txid st = Except.ok p) :
    ∃ K, st.currentDbSize = some K ∧
      optSizeLt st.currentDbSize st.committedDbSize = false ∧
      commitChecksumLoop cks st.cache (st.dirtyPages.filter (fun q => q.1 ≤ K))
        (startChecksum st.pos) = some p.postApplyChecksum ∧
      p.txid = txid := by
  unfold commit_journal_inner at h
  split at h
  · exact Except.noConfusion h
  rename_i hlt
  split at h
  · exact Except.noConfusion h
  rename_i K hK
  split at h
  · exact Except.noConfusion h
  split at h
  · exact Except.noConfusion h
  split at h
  · exact Except.noConfusion h
  rename_i ck hloop
  split at h
  · cases h
    exact ⟨K, hK, by simpa using hlt, hloop, rfl⟩
  · exact Except.noConfusion h

theorem commit_journal_ok_state (cks : Nat → β → Nat) (lease : Option String) (wOk : Bool)
    (st2 st3 : DbState β)
    (h : commit_journal cks VALID_JOURNAL_HDR lease wOk st2 = (Except.ok (), st3)) :
    ∃ p, commit_journal_inner cks lease wOk (nextTxid st2.pos) st2 = Except.ok p ∧
      st3 = { st2 with
        committedDbSize := st2.currentDbSize
        dirtyPages := []
        pos := some p } := by
  rw [commit_journal, if_neg (by simp)] at h
  cases hinner : commit_journal_inner cks lease wOk (nextTxid st2.pos) st2 with
  | error e =>
    rw [hinner] at h
    exact Except.noConfusion (congrArg Prod.fst h)
  | ok p =>
    rw [hinner] at h
    exact ⟨p, rfl, (congrArg Prod.snd h).symm⟩

theorem good_step (cks : Nat → β → Nat) (pPS pC : β → Option Nat)
    (st1 st2 st3 : DbState β) (ws : List (Nat × β)) (l : String) (wOk : Bool)
    (hg : Good cks st1)
    (hrun : runWrites cks pPS pC (some l) ws st1 = Except.ok st2)
    (hpos1 : ∀ w ∈ ws, 1 ≤ w.1)
    (hlock : ∀ w ∈ ws, ∀ ps, st2.pageSize = some ps → w.1 ≠ lockPage ps)
    (hcov : ∀ n, committedN st1 < n → n ≤ currentN st2 → n ∈ ws.map Prod.fst)
    (hcj : commit_journal cks VALID_JOURNAL_HDR (some l) wOk st2 = (Except.ok (), st3)) :
    Good cks st3 := by
  obtain ⟨hd1, hw1, hdisj⟩ := hg
  have hsort1 : dirtySorted st1.dirtyPages := by
    rw [hd1]; exact List.Pairwise.nil
  obtain ⟨⟨hpos2, hcom2, hwal2⟩, imono, iframe, isome, inew, isort, iorig⟩ :=
    runWrites_spec cks pPS pC l ws st1 st2 hw1 hsort1 hrun
  obtain ⟨p, hinner, hst3⟩ := commit_journal_ok_state cks (some l) wOk st2 st3 hcj
  obtain ⟨K, hK, hnotlt, hloop, _⟩ := commit_journal_inner_ok cks (some l) wOk _ st2 p hinner
  -- every dirty key of st2 is a ws key, and every (non-lock) ws key is a dirty key
  have hd2w : ∀ m, m ∈ st2.dirtyPages.map Prod.fst → m ∈ ws.map Prod.fst := by
    intro m hm
    have hne : dirtyLookup st2.dirtyPages m ≠ Option.none := by
      rw [Ne, dirtyLookup_eq_none_iff]
      exact fun hx => hx hm
    rcases inew m hne with h | h
    · exact absurd (by rw [hd1] at h; exact h) (by simp [dirtyLookup])
    · exact h
  have hw2d : ∀ m, m ∈ ws.map Prod.fst → m ∈ st2.dirtyPages.map Prod.fst := by
    intro m hm
    obtain ⟨w, hwmem, hw1eq⟩ := List.mem_map.mp hm
    have hnl : ∀ ps, st2.pageSize = some ps → m ≠ lockPage ps := by
      intro ps hps
      rw [← hw1eq]
      exact hlock w hwmem ps hps
    have hchar := iorig m hm hnl
    rw [hd1] at hchar
    by_contra hno
    have hnone : dirtyLookup st2.dirtyPages m = Option.none :=
      (dirtyLookup_eq_none_iff m st2.dirtyPages).mpr hno
    rw [hchar] at hnone
    simp [dirtyLookup, Option.orElse] at hnone
  -- start checksum of st2 is the XOR of the committed pages of st1
  have hstart : startChecksum st2.pos = xorPages cks st1.cache (committedN st1) := by
    rw [hpos2]
    rcases hdisj with ⟨hp, hc, _⟩ | ⟨q, s, hp, hc, hck, _⟩
    · rw [hp]
      simp only [committedN, hc]
      rfl
    · rw [hp]
      simp only [committedN, hc, Option.getD_some, startChecksum]
      exact hck
  have hcomN : st2.committedDbSize = st1.committedDbSize := hcom2
  -- the commitLoop hypotheses
  have hnd : (st2.dirtyPages.map Prod.fst).Nodup := dirtySorted_nodup_keys _ isort
  have hposD : ∀ q ∈ st2.dirtyPages, 1 ≤ q.1 := by
    intro q hq
    have hmem := hd2w q.1 (List.mem_map_of_mem Prod.fst hq)
    obtain ⟨w, hwmem, hw1eq⟩ := List.mem_map.mp hmem
    rw [← hw1eq]
    exact hpos1 w hwmem
  have hvalD : ∀ q ∈ st2.dirtyPages,
      q.2 = if committedN st1 < q.1 then Option.none
        else (st1.cache q.1).map (cks q.1) := by
    intro q hq
    have hmem := hd2w q.1 (List.mem_map_of_mem Prod.fst hq)
    obtain ⟨w, hwmem, hw1eq⟩ := List.mem_map.mp hmem
    have hnl : ∀ ps, st2.pageSize = some ps → q.1 ≠ lockPage ps := by
      intro ps hps
      rw [← hw1eq]
      exact hlock w hwmem ps hps
    have horig := iorig q.1 hmem hnl
    rw [hd1] at horig
    have hlk := dirtyLookup_eq_some_of_mem st2.dirtyPages hnd q.1 q.2 hq
    rw [horig] at hlk
    have hq2 : q.2 = origOf cks st1 q.1 := by
      simpa [dirtyLookup, Option.orElse] using hlk.symm
    rw [hq2, origOf]
    rcases hdisj with ⟨_, hc, hcache⟩ | ⟨r, s, _, hc, _, _⟩
    · rw [hc]
      have h1q : 1 ≤ q.1 := hposD q hq
      have : committedN st1 = 0 := by rw [committedN, hc]; rfl
      rw [if_pos (by omega), hcache]
      rfl
    · rw [hc]
      have : committedN st1 = s := by rw [committedN, hc]; rfl
      rw [this]
  have hframeD : ∀ n, n ∉ st2.dirtyPages.map Prod.fst → st2.cache n = st1.cache n := by
    intro n hn
    have hnw : n ∉ ws.map Prod.fst := fun hx => hn (hw2d n hx)
    exact (iframe n hnw).1
  have hcovD : ∀ n, committedN st1 < n → n ≤ K → n ∈ st2.dirtyPages.map Prod.fst := by
    intro n h1 h2
    refine hw2d n (hcov n h1 ?_)
    rw [currentN, hK]
    exact h2
  have hs0K : committedN st1 ≤ K := by
    rw [hK, hcomN] at hnotlt
    rcases hc : st1.committedDbSize with _ | s
    · rw [committedN, hc]
      exact Nat.zero_le K
    · rw [hc] at hnotlt
      rw [committedN, hc]
      simp only [optSizeLt] at hnotlt
      simpa using Nat.le_of_not_lt (by simpa using hnotlt)
  have hcachedD : ∀ q ∈ st2.dirtyPages, (st2.cache q.1).isSome := by
    intro q hq
    exact isome q.1 (hd2w q.1 (List.mem_map_of_mem Prod.fst hq))
  have hxor := commitLoop_xor cks st1.cache st2.cache (committedN st1) K st2.dirtyPages
    hnd hposD hvalD hframeD hcovD hs0K hcachedD
  rw [hstart, hxor] at hloop
  have hck2 : p.postApplyChecksum = xorPages cks st2.cache K :=
    (Option.some.injEq _ _ ▸ hloop :
      xorPages cks st2.cache K = p.postApplyChecksum).symm
  -- all committed pages of st2 are cached
  have hall : ∀ n, 1 ≤ n → n ≤ K → (st2.cache n).isSome := by
    intro n h1 h2
    by_cases hmem : n ∈ ws.map Prod.fst
    · exact isome n hmem
    · have hns : n ≤ committedN st1 := by
        by_contra hgt
        exact hmem (hcov n (Nat.lt_of_not_le hgt) (by rw [currentN, hK]; exact h2))
      have hfr : st2.cache n = st1.cache n := (iframe n hmem).1
      rw [hfr]
      rcases hdisj with ⟨_, hc, _⟩ | ⟨r, s, _, hc, _, hcache⟩
      · exfalso
        rw [committedN, hc] at hns
        exact absurd (Nat.le_trans h1 hns) (by simp)
      · refine hcache n h1 ?_
        rw [committedN, hc] at hns
        exact hns
  refine ⟨by rw [hst3], by rw [hst3]; exact hwal2, Or.inr ⟨p, K, ?_, ?_, ?_, ?_⟩⟩
  · rw [hst3]
  · rw [hst3]
    exact hK
  · rw [hst3]
    exact hck2
  · intro n h1 h2
    rw [hst3]
    exact hall n h1 h2

theorem good_emptyDb (cks : Nat → β → Nat) : Good cks (emptyDb : DbState β) :=
  ⟨rfl, rfl, Or.inl ⟨rfl, rfl, fun _ => rfl⟩⟩

theorem good_chain (cks : Nat → β → Nat) (pPS pC : β → Option Nat)
    (st st' : DbState β) (h : CommitChain cks pPS pC st st') (hg : Good cks st) :
    Good cks st' := by
  induction h with
  | refl => exact hg
  | step st2 st3 ws l wOk hchain hrun hpos1 hlock hcov hcj ih =>
    exact good_step cks pPS pC _ st2 st3 ws l wOk ih hrun hpos1 hlock hcov hcj

/-- **C2.** XOR-commit-checksum round trip: along any chain of successful SQLite
transactions starting from an empty database — each transaction a batch of page
writes followed by a magic-bearing `commit_journal`, with SQLite's own guarantees
about its write traffic (1-based page numbers, no lock-page writes, pages added
beyond the old committed size were written) — the `post_apply_checksum` recorded in
the installed position equals the XOR over the page checksums of pages `1..commit`
of the resulting cache, even though each commit computes it incrementally: starting
from the previous `post_apply_checksum` (or 0), XORing out each dirty page's
pre-edit checksum when present, XORing in the new checksum, and skipping dirty
pages beyond the commit size. -/
theorem commit_checksum_roundtrip (cks : Nat → β → Nat) (pPS pC : β → Option Nat)
    (st : DbState β) (h : CommitChain cks pPS pC emptyDb st)
    (p : Pos) (s : Nat) (hp : st.pos = some p) (hs : st.committedDbSize = some s) :
    p.postApplyChecksum = xorPages cks st.cache s := by
  obtain ⟨-, -, hdisj⟩ := good_chain cks pPS pC emptyDb st h (good_emptyDb cks)
  rcases hdisj with ⟨hp0, _, _⟩ | ⟨q, s', hq, hs', hck, _⟩
  · rw [hp0] at hp
    exact Option.noConfusion hp
  · rw [hq] at hp
    rw [hs'] at hs
    cases Option.some.injEq q p ▸ hp
    cases Option.some.injEq s' s ▸ hs
    exact hck

theorem commit_checksum_roundtrip_witness :
    (⟨1, 25⟩ : Pos).postApplyChecksum =
      xorPages (fun n d => 16 * n + d) c2Final.cache 1 := by
  have hchain : CommitChain (fun n d => 16 * n + d) (fun _ => some 512) (fun _ => some 1)
      emptyDb c2Final := by
    refine CommitChain.step c2Mid c2Final [(1, 9)] ("l") true
      (CommitChain.refl emptyDb) rfl ?_ ?_ ?_ rfl
    · intro w hw
      rw [List.mem_singleton] at hw
      subst hw
      decide
    · intro w hw ps hps
      rw [List.mem_singleton] at hw
      subst hw
      have hps' : ps = 512 := by
        have : some (512 : Nat) = some ps := hps
        exact (Option.some.injEq _ _ ▸ this).symm
      subst hps'
      decide
    · intro n h1 h2
      have hn : n = 1 := by
        simp only [committedN, currentN, emptyDb, c2Mid, Option.getD_some] at h1 h2
        omega
      subst hn
      exact List.mem_singleton.mpr rfl
  exact commit_checksum_roundtrip (fun n d => 16 * n + d) (fun _ => some 512)
    (fun _ => some 1) c2Final hchain ⟨1, 25⟩ 1 rfl rfl

end LiteVFS
